import Mathlib

/-!
Verification of the layer-graph execution engine in `src/layer.cu` of
cuda-convnet (forward/backward scheduling, gradient checking, and the
layer-specific computations the specification describes).

The embedding below models:
* the layer graph built by `LayerGraph::LayerGraph` (declared predecessor
  lists, derived successor lists via `Layer::addNext`),
* the dependency-counted forward wave (`Layer::fprop`, `DataLayer::fprop`,
  `LayerGraph::fprop`),
* the backward accumulation policy of `FCLayer::_bprop` / `Layer::bprop`,
* `LogregCost::bprop`, `Cost::_bprop`, `DataLayer::fprop()` error paths,
* `ConvLayer::_bprop` weight-gradient path selection,
* the weight-increment formula of `FCLayer::_bprop`,
* `SoftmaxLayer::_fprop`,
* `LayerGraph::checkGradientsW`.

Device float matrices are embedded as functions into the reals (or, where a
decidable witness is needed and only ring structure matters, the rationals);
the external NVMatrix/Matrix primitives (`rightMult`, `addProduct`, `max`,
`sum`, `eltwiseDivideByVector`, `norm`) are given their documented pointwise
meanings.
-/

set_option maxHeartbeats 1000000

/--
A layer graph as produced by `LayerGraph::LayerGraph` (layer.cu:169-205):
layer `i` declares its list of predecessor layers (`Layer::addPrev`, in
declaration order, possibly with repeats), and `isData i` records whether
layer `i` was declared with the `data` type tag (such layers are collected
into `_dataLayers` in declaration order).  The constructor resolves a
predecessor index through `layerGraph->getLayer`, which can only return an
already-constructed layer, so in every graph the constructor can build each
predecessor index is strictly smaller than the declaring layer index; that
fact is taken as the `hdag` hypothesis in the theorems below.
-/
structure LayerGraph where
  numLayers : Nat
  prevOf : Fin numLayers → List (Fin numLayers)
  isData : Fin numLayers → Bool

/--
The successor table built by the second loop of `LayerGraph::LayerGraph`
(layer.cu:197-204): for each layer `i` in declaration order, for each `p` in
the predecessor list of `i`, `p->addNext(_layers[i])` appends `i` to the successor
list of `p` (layer.cu:128-131).
-/
def addNextAll (G : LayerGraph) : Fin G.numLayers → List (Fin G.numLayers) :=
  (List.finRange G.numLayers).foldl
    (fun nxt i => (G.prevOf i).foldl
      (fun nxt2 p => Function.update nxt2 p (nxt2 p ++ [i])) nxt)
    (fun _ => [])

/-- Multiplicity of the forward edge from `p` to `j` in the built graph:
how many times `j` occurs in the successor list of `p`. -/
def multOf (G : LayerGraph) (p j : Fin G.numLayers) : Nat :=
  ((addNextAll G) p).count j

/--
The per-pass counters of the whole graph: `cnt i` is the `_rcvdFInputs`
counter of layer `i`, and `done i` counts how many times the layer-specific
forward computation `_fprop` of layer `i` has run in the pass.
-/
structure PassState (n : Nat) where
  cnt : Fin n → Nat
  done : Fin n → Nat

/--
`Layer::fprop()` (layer.cu:66-75) together with the computing overload
`Layer::fprop(NVMatrixV&)` (layer.cu:83-92): increment `_rcvdFInputs`; when it
equals the predecessor count, run the layer-specific forward computation
(counted by `done`) and then invoke `fprop()` on every successor
(`Layer::fpropNext`, layer.cu:43-47).  The recursion is bounded by an explicit
fuel argument; because every successor of a layer has a strictly larger index,
fuel `numLayers` is always sufficient, and the fuel-exhausted branch is
unreachable in the runs considered by the theorems.
-/
def layerFprop (G : LayerGraph) :
    Nat → Fin G.numLayers → PassState G.numLayers → PassState G.numLayers
  | 0, _, st => st
  | fuel + 1, i, st =>
    if st.cnt i + 1 = (G.prevOf i).length then
      (addNextAll G i).foldl (fun s j => layerFprop G fuel j s)
        { cnt := Function.update st.cnt i (st.cnt i + 1),
          done := Function.update st.done i (st.done i + 1) }
    else
      { st with cnt := Function.update st.cnt i (st.cnt i + 1) }

/--
`DataLayer::fprop(NVMatrixV&)` (layer.cu:613-616): run the `_fprop` of the
data layer (which aliases the dataset slot; counted by `done`) and then
propagate to every successor.  The dependency counter of the data layer
itself is not touched.
-/
def dataLayerSeed (G : LayerGraph) (d : Fin G.numLayers)
    (st : PassState G.numLayers) : PassState G.numLayers :=
  (addNextAll G d).foldl (fun s j => layerFprop G G.numLayers j s)
    { st with done := Function.update st.done d (st.done d + 1) }

/-- The `_dataLayers` list collected by the constructor: the data layers in
declaration order. -/
def dataLayersOf (G : LayerGraph) : List (Fin G.numLayers) :=
  (List.finRange G.numLayers).filter (fun i => G.isData i)

/-- `LayerGraph::reset` (layer.cu:280-284): zero the counters of every layer (the
pass also starts with no `_fprop` having run). -/
def resetAll (n : Nat) : PassState n :=
  { cnt := fun _ => 0, done := fun _ => 0 }

/--
`LayerGraph::fprop(Data&)` (layer.cu:310-316): reset all counters, then push
each dataset slot through the seeding entry point of the corresponding data layer,
in declared data-layer order.
-/
def graphFprop (G : LayerGraph) : PassState G.numLayers :=
  (dataLayersOf G).foldl (fun s d => dataLayerSeed G d s) (resetAll G.numLayers)

/--
Accounting specification for a fragment of a forward pass, used to reason
about the recursive wave compositionally.  `emit j` counts the external
`fprop()` signals delivered to `j` by the fragment itself (not caused by a
computation inside the fragment), `seeded j` counts data-layer seedings of
`j` inside the fragment.  The three components say: counters are monotone;
the growth of `cnt j` equals the externally delivered signals plus one signal
per successor-list occurrence of `j` for every `_fprop` that ran inside the
fragment; and `done j` grows by the seedings plus exactly one when `cnt j`
crosses the predecessor-count threshold inside the fragment.
-/
def FragSpec (G : LayerGraph) (emit seeded : Fin G.numLayers → Nat)
    (st0 st1 : PassState G.numLayers) : Prop :=
  (∀ j, st0.cnt j ≤ st1.cnt j) ∧
  (∀ j, st1.cnt j + ∑ p, st0.done p * multOf G p j
      = st0.cnt j + emit j + ∑ p, st1.done p * multOf G p j) ∧
  (∀ j, st1.done j = st0.done j + seeded j +
      (if st0.cnt j < (G.prevOf j).length ∧ (G.prevOf j).length ≤ st1.cnt j
       then 1 else 0))

/-- A concrete diamond-shaped graph (data layer feeding two branches that
join), used to witness the scheduling theorem on a closed instance. -/
def diamondGraph : LayerGraph where
  numLayers := 4
  prevOf := fun i =>
    if i.val = 1 ∨ i.val = 2 then [⟨0, by omega⟩]
    else if i.val = 3 then [⟨1, by omega⟩, ⟨2, by omega⟩]
    else []
  isData := fun i => i.val = 0

/--
State of the predictions predecessor (`_prev[1]`) of a `LogregCost` layer as
seen by `LogregCost::bprop`: its activation-gradient buffer (one scalar cell
standing for the buffer contents), its `_rcvdBInputs` counter, and how many
times its own layer-specific backward computation has run.
-/
structure PredLayerView where
  actGrads : ℚ
  rcvdB : Nat
  fired : Nat
deriving DecidableEq

/--
`LogregCost::bprop` (layer.cu:737-762) as it acts on the predictions
predecessor `_prev[1]`: if `_coeff != 0`, launch `kLogregCostGrads`, which
overwrites the gradient buffer of the predecessor when `getRcvdBInputs() == 0`
and accumulates into it otherwise (`contrib` stands for the unscaled kernel
logreg gradient value, which the kernel multiplies by `coeff`); then —
unconditionally, outside the coefficient test — call `_prev[1]->bprop()`
(`Layer::bprop()`, layer.cu:94-99), which increments the `_rcvdBInputs` of
the predecessor and fires its layer-specific backward computation exactly when
the counter equals `numGradProducersNext`.
-/
def logregCostBprop (coeff : ℚ) (contrib : ℚ) (numGradProducersNext : Nat)
    (st : PredLayerView) : PredLayerView :=
  let st1 :=
    if coeff ≠ 0 then
      { st with actGrads :=
          if st.rcvdB = 0 then coeff * contrib else st.actGrads + coeff * contrib }
    else st
  let st2 := { st1 with rcvdB := st1.rcvdB + 1 }
  if st2.rcvdB = numGradProducersNext then { st2 with fired := st2.fired + 1 }
  else st2

/--
Accumulation state of the activation-gradient buffer of a predecessor during a
backward pass, as driven by `FCLayer::_bprop` (layer.cu:401-422): the buffer
contents and the `_rcvdBInputs` counter of the predecessor.
-/
structure BpropAcc (α : Type) where
  actGrads : α
  rcvdB : Nat
deriving DecidableEq

/--
The gradient contribution `c` of one successor arriving at a predecessor
(layer.cu:406-412 followed by the `_prev[i]->bprop()` call of line 419): when
the `_rcvdBInputs` of the predecessor is `0` the buffer is overwritten
(`v.rightMult(weights_T, getActGrads())`), otherwise the contribution is
added (`getActGrads().addProduct(v, weights_T)`); the subsequent
`Layer::bprop()` call increments the counter.
-/
def deliverGrad {α : Type} [Add α] (st : BpropAcc α) (c : α) : BpropAcc α :=
  { actGrads := if st.rcvdB = 0 then c else st.actGrads + c,
    rcvdB := st.rcvdB + 1 }

/-- The contributions of all successors arriving in some order. -/
def deliverAll {α : Type} [Add α] (cs : List α) (st : BpropAcc α) : BpropAcc α :=
  cs.foldl deliverGrad st

/--
`DataLayer::fprop()` (layer.cu:600-602): the dependency-counted zero-argument
entry point on a data layer always throws (string `"No dava given!"`, typo as
in the source) and touches no state.
-/
def dataLayerFprop0 {n : Nat} (st : PassState n) : Except String (PassState n) :=
  Except.error "No dava given!"

/--
`Cost::_bprop(NVMatrix&)` (layer.cu:692-694): the generic single-gradient
backward entry point on a cost layer always throws and performs no
computation.
-/
def costBpropSingle {α : Type} (v : α) : Except String Unit :=
  Except.error "Cost does not support _bprop(NVMatrix&)"

/-- The configuration fields of `ConvLayer` relevant to the weight-gradient
path, as set by `ConvLayer::ConvLayer` (layer.cu:463-474); in particular
`_modules = _modulesX * _modulesX`. -/
structure ConvLayerCfg where
  modulesX : Int
  modules : Int
  filterSize : Int
  filterPixels : Int
  partSum : Int
deriving DecidableEq

/-- `ConvLayer::ConvLayer` (layer.cu:451-482): reads `modulesX`, `filterSize`
and `partialSum` from the declaration and derives `_modules` and
`_filterPixels`. -/
def mkConvLayer (modulesX filterSize partSum : Int) : ConvLayerCfg :=
  { modulesX := modulesX, modules := modulesX * modulesX,
    filterSize := filterSize, filterPixels := filterSize * filterSize,
    partSum := partSum }

/-- Which code path of `ConvLayer::_bprop` computes the weight gradient. -/
inductive WeightGradPath where
  | chunked
  | single
deriving DecidableEq

/--
The branch of `ConvLayer::_bprop` selecting the weight-gradient computation
(layer.cu:503-511): the chunked partial-sum path runs iff
`_partialSum > 0 && _partialSum < _modules`; otherwise the single
`convWeightActs` call computes the gradient directly.
-/
def convWeightGradPath (L : ConvLayerCfg) : WeightGradPath :=
  if 0 < L.partSum ∧ L.partSum < L.modules then WeightGradPath.chunked
  else WeightGradPath.single

/-- Dense device matrix, embedded as a function into the reals. -/
def RMat (m n : Nat) : Type := Fin m → Fin n → ℝ

/-- `NVMatrix` product: `A.rightMult(B, target)` sets `target = A * B`. -/
noncomputable def matMul {m k n : Nat} (A : RMat m k) (B : RMat k n) : RMat m n :=
  fun i j => ∑ t, A i t * B t j

/-- `NVMatrix::getTranspose`. -/
def transposeOf {m n : Nat} (A : RMat m n) : RMat n m :=
  fun i j => A j i

/-- `target.addProduct(A, B, scaleTarget, scaleAB)`:
`target = scaleTarget * target + scaleAB * (A * B)`. -/
noncomputable def addProduct {m k n : Nat} (target : RMat m n) (A : RMat m k)
    (B : RMat k n) (scaleTarget scaleAB : ℝ) : RMat m n :=
  fun i j => scaleTarget * target i j + scaleAB * matMul A B i j

/-- The numeric value of a C++ bool in an arithmetic expression. -/
def boolToReal (b : Bool) : ℝ :=
  if b then 1 else 0

/--
The weight-increment update of `FCLayer::_bprop` (layer.cu:414-417):
`_weights[i].getInc().addProduct(prevActs_T, v,
  (!isCheckingGrads()) * mom, isCheckingGrads() ? 1 : eps / numCases)`.
-/
noncomputable def fcWeightIncUpdate {m k n : Nat} (checking : Bool)
    (inc : RMat k n) (prevActs : RMat m k) (v : RMat m n)
    (mom eps numCases : ℝ) : RMat k n :=
  addProduct inc (transposeOf prevActs) v (boolToReal (!checking) * mom)
    (if checking then (1 : ℝ) else eps / numCases)

/-- `input.max(1)`: per-case (axis-1) maximum of a cases-by-outputs matrix.
The output dimension of a softmax layer is at least one, which the index type
`Fin (n+1)` records. -/
noncomputable def rowMax {m n : Nat} (A : Fin m → Fin (n + 1) → ℝ) (c : Fin m) : ℝ :=
  Finset.univ.sup' Finset.univ_nonempty (A c)

/-- `input.addVector(vec, scale, target)`: `target = input + scale * vec`,
broadcasting the per-case vector across the entries of each case. -/
noncomputable def addVec {m n : Nat} (A : Fin m → Fin n → ℝ) (vec : Fin m → ℝ)
    (scale : ℝ) : Fin m → Fin n → ℝ :=
  fun c j => A c j + scale * vec c

/-- `acts.apply(NVMatrix::EXP)`: elementwise exponentiation. -/
noncomputable def applyEXP {m n : Nat} (A : Fin m → Fin n → ℝ) :
    Fin m → Fin n → ℝ :=
  fun c j => Real.exp (A c j)

/-- `acts.sum(1)`: per-case (axis-1) sum. -/
noncomputable def rowSum {m n : Nat} (A : Fin m → Fin n → ℝ) (c : Fin m) : ℝ :=
  ∑ j, A c j

/-- `acts.eltwiseDivideByVector(vec)`: divide the entries of each case by the
scalar of that case. -/
noncomputable def divByVec {m n : Nat} (A : Fin m → Fin n → ℝ) (vec : Fin m → ℝ) :
    Fin m → Fin n → ℝ :=
  fun c j => A c j / vec c

/--
`SoftmaxLayer::_fprop` (layer.cu:576-587): per-case max is subtracted
(`addVector(max, -1, _acts)`), the result exponentiated, and each case
divided by its per-case sum.
-/
noncomputable def softmaxFprop {m n : Nat} (input : Fin m → Fin (n + 1) → ℝ) :
    Fin m → Fin (n + 1) → ℝ :=
  let mx := rowMax input
  let e := applyEXP (addVec input mx (-1))
  divByVec e (fun c => rowSum e c)

/-- Write a single entry of a host/device matrix (`weightsCPU(i,j) = x`). -/
def updEntry {m n : Nat} (A : RMat m n) (i : Fin m) (j : Fin n) (x : ℝ) :
    RMat m n :=
  fun a b => if a = i ∧ b = j then x else A a b

/-- The state threaded through the per-entry loop of
`LayerGraph::checkGradientsW` (layer.cu:215-226): the host copy
`weightsCPU`, the device weight matrix `weights.getW()`, and the
`numGrads` matrix filled so far. -/
structure CgwLoop (m n : Nat) where
  hostW : RMat m n
  devW : RMat m n
  numGrads : RMat m n

/--
One iteration of the gradient-checking loop of `LayerGraph::checkGradientsW`
(layer.cu:217-224) at entry `p = (i, j)`: save `v = weightsCPU(i,j)`, add
`eps` on the host, copy the host matrix to the device, restore the host
entry, run `fprop()` and read the cost (`costF` is the cost of the full
forward pass as a function of this device weight matrix), record
`(err - baseErr) / (numCases * eps)` in `numGrads(i,j)`, and finally copy the
restored host matrix back to the device.
-/
noncomputable def cgwStep {m n : Nat} (costF : RMat m n → ℝ)
    (eps baseErr numCases : ℝ) (st : CgwLoop m n) (p : Fin m × Fin n) :
    CgwLoop m n :=
  let v := st.hostW p.1 p.2
  let host1 := updEntry st.hostW p.1 p.2 (v + eps)
  let dev1 := host1
  let host2 := updEntry host1 p.1 p.2 v
  let err := costF dev1
  let ng := updEntry st.numGrads p.1 p.2 ((err - baseErr) / (numCases * eps))
  { hostW := host2, devW := host2, numGrads := ng }

/-- All matrix entries in the row-major order of the double loop of
`checkGradientsW`. -/
def allIdx (m n : Nat) : List (Fin m × Fin n) :=
  (List.finRange m).flatMap (fun i => (List.finRange n).map (fun j => (i, j)))

/-- Frobenius norm (`Matrix::norm()` of the host matrix library; modelled
from the spec: the comparison uses relative Frobenius-norm error). -/
noncomputable def frobNorm {m n : Nat} (A : RMat m n) : ℝ :=
  Real.sqrt (∑ i, ∑ j, A i j ^ 2)

/-- Pointwise matrix difference (`numGrads.subtract(gradsCPU, diff)`). -/
noncomputable def matSub {m n : Nat} (A B : RMat m n) : RMat m n :=
  fun i j => A i j - B i j

/-- In-place scalar scaling (`weights.getGrads().scale(c)`). -/
noncomputable def matScale {m n : Nat} (c : ℝ) (A : RMat m n) : RMat m n :=
  fun i j => c * A i j

/-- Everything `LayerGraph::checkGradientsW` leaves behind: the device weight
matrix on exit, the gradient-accumulator buffer on exit (scaled in place),
the numeric-gradient matrix, the relative error, and the failure flag. -/
structure CgwResult (m n : Nat) where
  finalW : RMat m n
  analGrads : RMat m n
  numGrads : RMat m n
  relErr : ℝ
  fail : Prop

/--
`LayerGraph::checkGradientsW` (layer.cu:207-252) on a weight container whose
device weight matrix is `w0` and whose gradient accumulator is `grads0`:
zero `numGrads`, copy the weights to the host, run the per-entry
forward-difference loop, scale the gradient accumulator in place by
`-1.0 / numCases`, and flag failure iff the relative Frobenius-norm error is
at least `GC_REL_ERR_THRESH = 0.02`.
-/
noncomputable def checkGradientsW {m n : Nat} (costF : RMat m n → ℝ)
    (eps baseErr numCases : ℝ) (w0 grads0 : RMat m n) : CgwResult m n :=
  let loop := (allIdx m n).foldl (cgwStep costF eps baseErr numCases)
    { hostW := w0, devW := w0, numGrads := fun _ _ => 0 }
  let analGrads := matScale (-1 / numCases) grads0
  let analNorm := frobNorm analGrads
  let diff := matSub loop.numGrads analGrads
  let relErr := frobNorm diff / analNorm
  { finalW := loop.devW, analGrads := analGrads, numGrads := loop.numGrads,
    relErr := relErr, fail := 0.02 ≤ relErr }

/-! ### Counting the successor edges built by the constructor -/

theorem addPrevFold_count {N : Nat} (i B A : Fin N) :
    ∀ (ps : List (Fin N)) (acc : Fin N → List (Fin N)),
      ((ps.foldl (fun a p => Function.update a p (a p ++ [i])) acc) B).count A
        = (acc B).count A + if A = i then ps.count B else 0 := by
  intro ps
  induction ps with
  | nil => intro acc; simp
  | cons p ps ih =>
    intro acc
    simp only [List.foldl_cons]
    rw [ih]
    by_cases hpB : B = p <;> by_cases hAi : A = i <;>
      simp [Function.update_apply, hpB, hAi, List.count_append, List.count_singleton,
        List.count_cons, beq_iff_eq] <;> omega

theorem count_cons_ite {N : Nat} (a q : Fin N) (l : List (Fin N)) :
    (a :: l).count q = l.count q + if q = a then 1 else 0 := by
  rw [List.count_cons]
  congr 1
  by_cases h : q = a
  · simp [h]
  · have h2 : ¬a = q := fun hh => h hh.symm
    simp [beq_iff_eq, h, h2]

theorem addNextLoop_count (G : LayerGraph) (B A : Fin G.numLayers) :
    ∀ (is2 : List (Fin G.numLayers)) (acc : Fin G.numLayers → List (Fin G.numLayers)),
      ((is2.foldl
          (fun a i2 => (G.prevOf i2).foldl
            (fun a2 p => Function.update a2 p (a2 p ++ [i2])) a)
          acc) B).count A
        = (acc B).count A + is2.count A * (G.prevOf A).count B := by
  intro is2
  induction is2 with
  | nil => intro acc; simp
  | cons i2 is2 ih =>
    intro acc
    simp only [List.foldl_cons]
    rw [ih, addPrevFold_count, count_cons_ite]
    by_cases hAi : A = i2
    · subst hAi
      rw [if_pos rfl, if_pos rfl, Nat.add_mul, Nat.one_mul]
      omega
    · rw [if_neg hAi, if_neg hAi, Nat.add_zero, Nat.add_zero]

theorem count_addNextAll (G : LayerGraph) (B A : Fin G.numLayers) :
    (addNextAll G B).count A = (G.prevOf A).count B := by
  unfold addNextAll
  rw [addNextLoop_count]
  simp [List.count_eq_one_of_mem (List.nodup_finRange _) (List.mem_finRange _)]

theorem multOf_eq (G : LayerGraph) (p j : Fin G.numLayers) :
    multOf G p j = (G.prevOf j).count p :=
  count_addNextAll G p j

theorem mem_addNextAll {G : LayerGraph} {p j : Fin G.numLayers} :
    j ∈ addNextAll G p ↔ p ∈ G.prevOf j := by
  rw [← List.count_pos_iff (l := addNextAll G p), count_addNextAll,
    List.count_pos_iff]

/-! ### Fragment accounting for the forward wave -/

theorem FragSpec.triv {G : LayerGraph} (e s : Fin G.numLayers → Nat)
    (he : ∀ j, e j = 0) (hs : ∀ j, s j = 0) (st : PassState G.numLayers) :
    FragSpec G e s st st := by
  refine ⟨fun j => le_refl _, fun j => ?_, fun j => ?_⟩
  · have := he j
    omega
  · have := hs j
    split_ifs with h
    · omega
    · omega

theorem FragSpec.comp {G : LayerGraph} {e1 e2 s1 s2 : Fin G.numLayers → Nat}
    {st0 st1 st2 : PassState G.numLayers}
    (h1 : FragSpec G e1 s1 st0 st1) (h2 : FragSpec G e2 s2 st1 st2) :
    FragSpec G (fun j => e1 j + e2 j) (fun j => s1 j + s2 j) st0 st2 := by
  obtain ⟨m1, c1, d1⟩ := h1
  obtain ⟨m2, c2, d2⟩ := h2
  refine ⟨fun j => le_trans (m1 j) (m2 j), fun j => ?_, fun j => ?_⟩
  · show st2.cnt j + (∑ p, st0.done p * multOf G p j)
      = st0.cnt j + (e1 j + e2 j) + (∑ p, st2.done p * multOf G p j)
    have hc1 := c1 j
    have hc2 := c2 j
    omega
  · show st2.done j = st0.done j + (s1 j + s2 j) +
      (if st0.cnt j < (G.prevOf j).length ∧ (G.prevOf j).length ≤ st2.cnt j
       then 1 else 0)
    have hd1 := d1 j
    have hd2 := d2 j
    have hm1 := m1 j
    have hm2 := m2 j
    split_ifs at hd1 hd2 ⊢ <;> omega

theorem FragSpec.congrFns {G : LayerGraph} {e1 e2 s1 s2 : Fin G.numLayers → Nat}
    {st0 st1 : PassState G.numLayers} (h : FragSpec G e1 s1 st0 st1)
    (he : ∀ j, e1 j = e2 j) (hs : ∀ j, s1 j = s2 j) :
    FragSpec G e2 s2 st0 st1 := by
  obtain ⟨m, c, d⟩ := h
  exact ⟨m, fun j => by rw [← he j]; exact c j,
    fun j => by rw [← hs j]; exact d j⟩

theorem sum_mul_update {N : Nat} (f g : Fin N → Nat) (i : Fin N) :
    (∑ p, Function.update f i (f i + 1) p * g p) = (∑ p, f p * g p) + g i := by
  have h1 : ∀ p : Fin N, Function.update f i (f i + 1) p * g p
      = f p * g p + (if p = i then g i else 0) := by
    intro p
    rcases eq_or_ne p i with hp | hp
    · subst hp
      rw [Function.update_same, if_pos rfl]
      ring
    · rw [Function.update_noteq hp, if_neg hp, Nat.add_zero]
  rw [Finset.sum_congr rfl fun p _ => h1 p, Finset.sum_add_distrib]
  congr 1
  simp

theorem sum_count_univ {N : Nat} (l : List (Fin N)) :
    (∑ p, l.count p) = l.length := by
  induction l with
  | nil => simp
  | cons a l ih =>
    have h1 : ∀ p : Fin N, (a :: l).count p = l.count p + if p = a then 1 else 0 :=
      fun p => count_cons_ite a p l
    rw [Finset.sum_congr rfl fun p _ => h1 p, Finset.sum_add_distrib, ih]
    simp

theorem foldFprop_frag (G : LayerGraph) (fuel : Nat)
    (IH : ∀ (i : Fin G.numLayers) (st : PassState G.numLayers),
        G.numLayers - i.val ≤ fuel →
        FragSpec G (fun j => if j = i then 1 else 0) (fun _ => 0) st
          (layerFprop G fuel i st)) :
    ∀ (js : List (Fin G.numLayers)) (st : PassState G.numLayers),
      (∀ j ∈ js, G.numLayers - j.val ≤ fuel) →
      FragSpec G (fun q => js.count q) (fun _ => 0) st
        (js.foldl (fun s j => layerFprop G fuel j s) st) := by
  intro js
  induction js with
  | nil =>
    intro st _
    exact FragSpec.triv _ _ (fun j => by simp) (fun j => rfl) st
  | cons j0 js ih =>
    intro st h
    simp only [List.foldl_cons]
    have h1 := IH j0 st (h j0 (by simp))
    have h2 := ih (layerFprop G fuel j0 st) (fun j hj => h j (by simp [hj]))
    refine (h1.comp h2).congrFns (fun q => ?_) (fun q => rfl)
    rw [count_cons_ite]
    omega

theorem layerFprop_frag (G : LayerGraph)
    (hdag : ∀ i : Fin G.numLayers, ∀ p ∈ G.prevOf i, p.val < i.val) :
    ∀ (fuel : Nat) (i : Fin G.numLayers) (st : PassState G.numLayers),
      G.numLayers - i.val ≤ fuel →
      FragSpec G (fun j => if j = i then 1 else 0) (fun _ => 0) st
        (layerFprop G fuel i st) := by
  intro fuel
  induction fuel with
  | zero =>
    intro i st h
    exact absurd h (by have := i.isLt; omega)
  | succ fuel ihf =>
    intro i st hfu
    by_cases hfire : st.cnt i + 1 = (G.prevOf i).length
    · have hnext : ∀ j ∈ addNextAll G i, G.numLayers - j.val ≤ fuel := by
        intro j hj
        have hij : i.val < j.val := hdag j i (mem_addNextAll.mp hj)
        have := j.isLt
        omega
      have hres : layerFprop G (fuel + 1) i st
          = (addNextAll G i).foldl (fun s j => layerFprop G fuel j s)
            { cnt := Function.update st.cnt i (st.cnt i + 1),
              done := Function.update st.done i (st.done i + 1) } := by
        simp only [layerFprop]
        rw [if_pos hfire]
      obtain ⟨fm, fc, fd⟩ := foldFprop_frag G fuel ihf (addNextAll G i)
        { cnt := Function.update st.cnt i (st.cnt i + 1),
          done := Function.update st.done i (st.done i + 1) } hnext
      dsimp only at fm fc fd
      rw [hres]
      refine ⟨fun j => ?_, fun j => ?_, fun j => ?_⟩
      · refine le_trans ?_ (fm j)
        rcases eq_or_ne j i with hj | hj
        · subst hj
          rw [Function.update_same]
          omega
        · rw [Function.update_noteq hj]
      · dsimp only
        have hc := fc j
        rw [sum_mul_update st.done (fun p => multOf G p j) i] at hc
        simp only [multOf] at hc ⊢
        rcases eq_or_ne j i with hj | hj
        · subst hj
          rw [Function.update_same] at hc
          rw [if_pos rfl]
          omega
        · rw [Function.update_noteq hj] at hc
          rw [if_neg hj]
          omega
      · dsimp only
        have hd := fd j
        rcases eq_or_ne j i with hj | hj
        · subst hj
          rw [Function.update_same, Function.update_same] at hd
          have hmono := fm j
          rw [Function.update_same] at hmono
          rw [hd, if_neg (by omega), if_pos (by refine ⟨by omega, by omega⟩)]
        · rw [Function.update_noteq hj, Function.update_noteq hj] at hd
          exact hd
    · have hres : layerFprop G (fuel + 1) i st
          = { st with cnt := Function.update st.cnt i (st.cnt i + 1) } := by
        simp only [layerFprop]
        rw [if_neg hfire]
      rw [hres]
      refine ⟨fun j => ?_, fun j => ?_, fun j => ?_⟩
      · dsimp only
        rcases eq_or_ne j i with hj | hj
        · subst hj
          rw [Function.update_same]
          omega
        · rw [Function.update_noteq hj]
      · dsimp only
        rcases eq_or_ne j i with hj | hj
        · subst hj
          rw [Function.update_same, if_pos rfl]
        · rw [Function.update_noteq hj, if_neg hj]
          omega
      · dsimp only
        rcases eq_or_ne j i with hj | hj
        · subst hj
          rw [Function.update_same]
          split_ifs with hcond
          · omega
          · omega
        · rw [Function.update_noteq hj]
          split_ifs with hcond
          · omega
          · omega

theorem dataLayerSeed_frag (G : LayerGraph)
    (hdag : ∀ i : Fin G.numLayers, ∀ p ∈ G.prevOf i, p.val < i.val)
    (d : Fin G.numLayers) (st : PassState G.numLayers) :
    FragSpec G (fun _ => 0) (fun j => if j = d then 1 else 0) st
      (dataLayerSeed G d st) := by
  obtain ⟨fm, fc, fd2⟩ := foldFprop_frag G G.numLayers
    (fun i st0 h => layerFprop_frag G hdag G.numLayers i st0 h)
    (addNextAll G d)
    { st with done := Function.update st.done d (st.done d + 1) }
    (fun j _ => by have := j.isLt; omega)
  dsimp only at fm fc fd2
  have hres : dataLayerSeed G d st
      = (addNextAll G d).foldl (fun s j => layerFprop G G.numLayers j s)
        { st with done := Function.update st.done d (st.done d + 1) } := rfl
  rw [hres]
  refine ⟨fun j => fm j, fun j => ?_, fun j => ?_⟩
  · dsimp only
    have hc := fc j
    rw [sum_mul_update st.done (fun p => multOf G p j) d] at hc
    simp only [multOf] at hc ⊢
    omega
  · dsimp only
    have hdj := fd2 j
    rcases eq_or_ne j d with hj | hj
    · subst hj
      rw [Function.update_same] at hdj
      rw [hdj, if_pos rfl]
    · rw [Function.update_noteq hj] at hdj
      rw [if_neg hj]
      exact hdj

theorem passFold_frag (G : LayerGraph)
    (hdag : ∀ i : Fin G.numLayers, ∀ p ∈ G.prevOf i, p.val < i.val) :
    ∀ (ds : List (Fin G.numLayers)) (st : PassState G.numLayers),
      FragSpec G (fun _ => 0) (fun j => ds.count j) st
        (ds.foldl (fun s d => dataLayerSeed G d s) st) := by
  intro ds
  induction ds with
  | nil =>
    intro st
    exact FragSpec.triv _ _ (fun j => rfl) (fun j => by simp) st
  | cons d ds ih =>
    intro st
    simp only [List.foldl_cons]
    have h1 := dataLayerSeed_frag G hdag d st
    have h2 := ih (dataLayerSeed G d st)
    refine (h1.comp h2).congrFns (fun q => rfl) (fun q => ?_)
    rw [count_cons_ite]
    omega

theorem count_dataLayersOf (G : LayerGraph) (j : Fin G.numLayers) :
    (dataLayersOf G).count j = if G.isData j = true then 1 else 0 := by
  by_cases hd : G.isData j = true
  · rw [if_pos hd]
    unfold dataLayersOf
    rw [List.count_filter hd]
    exact List.count_eq_one_of_mem (List.nodup_finRange _) (List.mem_finRange _)
  · rw [if_neg hd]
    refine List.count_eq_zero.mpr ?_
    intro hmem
    exact hd (List.mem_filter.mp hmem).2

theorem graphFprop_counts (G : LayerGraph)
    (hdag : ∀ i : Fin G.numLayers, ∀ p ∈ G.prevOf i, p.val < i.val) :
    (∀ j, (graphFprop G).cnt j = ∑ p, (graphFprop G).done p * multOf G p j) ∧
    (∀ j, (graphFprop G).done j = (dataLayersOf G).count j +
        (if 0 < (G.prevOf j).length ∧
            (G.prevOf j).length ≤ (graphFprop G).cnt j then 1 else 0)) := by
  obtain ⟨pm, pc, pd⟩ := passFold_frag G hdag (dataLayersOf G) (resetAll G.numLayers)
  dsimp only [resetAll] at pm pc pd
  have hGF : graphFprop G
      = (dataLayersOf G).foldl (fun s d => dataLayerSeed G d s)
        { cnt := fun _ => 0, done := fun _ => 0 } := rfl
  constructor
  · intro j
    have hc := pc j
    rw [hGF]
    simp only [Nat.zero_mul, Finset.sum_const_zero] at hc
    omega
  · intro j
    have hdj := pd j
    rw [hGF]
    omega

theorem graphFprop_once (G : LayerGraph)
    (hdag : ∀ i : Fin G.numLayers, ∀ p ∈ G.prevOf i, p.val < i.val)
    (hdata : ∀ i, G.isData i = true → G.prevOf i = [])
    (hnondata : ∀ i, G.isData i = false → G.prevOf i ≠ []) :
    ∀ j, (graphFprop G).done j = 1 ∧
      (graphFprop G).cnt j = (G.prevOf j).length := by
  obtain ⟨hcnt, hdone⟩ := graphFprop_counts G hdag
  have key : ∀ m : Nat, ∀ j : Fin G.numLayers, j.val = m →
      ((graphFprop G).done j = 1 ∧
        (graphFprop G).cnt j = (G.prevOf j).length) := by
    intro m
    induction m using Nat.strong_induction_on with
    | _ m IH =>
      intro j hj
      by_cases hd : G.isData j = true
      · have hprev := hdata j hd
        have hc0 : (graphFprop G).cnt j = 0 := by
          rw [hcnt j]
          refine Finset.sum_eq_zero fun p _ => ?_
          rw [multOf_eq, hprev]
          simp
        refine ⟨?_, ?_⟩
        · rw [hdone j, hc0, hprev, count_dataLayersOf, if_pos hd]
          simp
        · rw [hc0, hprev]
          rfl
      · have hbf : ¬G.isData j = true := hd
        have hprev := hnondata j (by revert hbf; cases G.isData j <;> simp)
        have hLpos : 0 < (G.prevOf j).length := List.length_pos.mpr hprev
        have hcL : (graphFprop G).cnt j = (G.prevOf j).length := by
          rw [hcnt j]
          have hterm : ∀ p : Fin G.numLayers,
              (graphFprop G).done p * multOf G p j = (G.prevOf j).count p := by
            intro p
            rw [multOf_eq]
            by_cases hp : p ∈ G.prevOf j
            · have hlt : p.val < j.val := hdag j p hp
              have hdp := (IH p.val (by omega) p rfl).1
              rw [hdp, Nat.one_mul]
            · rw [List.count_eq_zero.mpr hp, Nat.mul_zero]
          rw [Finset.sum_congr rfl fun p _ => hterm p]
          exact sum_count_univ (G.prevOf j)
        refine ⟨?_, hcL⟩
        rw [hdone j, hcL, count_dataLayersOf, if_neg hd,
          if_pos ⟨hLpos, le_refl _⟩]
  intro j
  exact key j.val j rfl

/-! ### Frame and local behavior of a single fprop signal -/

theorem foldFprop_frame (G : LayerGraph) (fuel : Nat)
    (IH : ∀ (i : Fin G.numLayers) (st : PassState G.numLayers)
        (k : Fin G.numLayers), k.val < i.val →
        (layerFprop G fuel i st).cnt k = st.cnt k ∧
        (layerFprop G fuel i st).done k = st.done k) :
    ∀ (js : List (Fin G.numLayers)) (st : PassState G.numLayers)
      (k : Fin G.numLayers), (∀ j ∈ js, k.val < j.val) →
      (js.foldl (fun s j => layerFprop G fuel j s) st).cnt k = st.cnt k ∧
      (js.foldl (fun s j => layerFprop G fuel j s) st).done k = st.done k := by
  intro js
  induction js with
  | nil => intro st k _; exact ⟨rfl, rfl⟩
  | cons j0 js ih =>
    intro st k h
    simp only [List.foldl_cons]
    have h1 := IH j0 st k (h j0 (by simp))
    have h2 := ih (layerFprop G fuel j0 st) k (fun j hj => h j (by simp [hj]))
    exact ⟨h2.1.trans h1.1, h2.2.trans h1.2⟩

theorem layerFprop_frame (G : LayerGraph)
    (hdag : ∀ i : Fin G.numLayers, ∀ p ∈ G.prevOf i, p.val < i.val) :
    ∀ (fuel : Nat) (i : Fin G.numLayers) (st : PassState G.numLayers)
      (k : Fin G.numLayers), k.val < i.val →
      (layerFprop G fuel i st).cnt k = st.cnt k ∧
      (layerFprop G fuel i st).done k = st.done k := by
  intro fuel
  induction fuel with
  | zero => intro i st k _; exact ⟨rfl, rfl⟩
  | succ fuel ihf =>
    intro i st k hk
    have hki : k ≠ i := by
      intro he
      rw [he] at hk
      omega
    by_cases hfire : st.cnt i + 1 = (G.prevOf i).length
    · have hres : layerFprop G (fuel + 1) i st
          = (addNextAll G i).foldl (fun s j => layerFprop G fuel j s)
            { cnt := Function.update st.cnt i (st.cnt i + 1),
              done := Function.update st.done i (st.done i + 1) } := by
        simp only [layerFprop]
        rw [if_pos hfire]
      rw [hres]
      have hframe := foldFprop_frame G fuel ihf (addNextAll G i)
        { cnt := Function.update st.cnt i (st.cnt i + 1),
          done := Function.update st.done i (st.done i + 1) } k
        (fun j hj => lt_trans hk (hdag j i (mem_addNextAll.mp hj)))
      dsimp only at hframe
      rw [Function.update_noteq hki, Function.update_noteq hki] at hframe
      exact hframe
    · have hres : layerFprop G (fuel + 1) i st
          = { st with cnt := Function.update st.cnt i (st.cnt i + 1) } := by
        simp only [layerFprop]
        rw [if_neg hfire]
      rw [hres]
      exact ⟨Function.update_noteq hki _ _, rfl⟩

theorem layerFprop_local (G : LayerGraph)
    (hdag : ∀ i : Fin G.numLayers, ∀ p ∈ G.prevOf i, p.val < i.val)
    (fuel : Nat) (i : Fin G.numLayers) (st : PassState G.numLayers) :
    (layerFprop G (fuel + 1) i st).cnt i = st.cnt i + 1 ∧
    ((layerFprop G (fuel + 1) i st).done i = st.done i + 1 ↔
      st.cnt i + 1 = (G.prevOf i).length) ∧
    ((layerFprop G (fuel + 1) i st).done i = st.done i ↔
      ¬st.cnt i + 1 = (G.prevOf i).length) := by
  by_cases hfire : st.cnt i + 1 = (G.prevOf i).length
  · have hres : layerFprop G (fuel + 1) i st
        = (addNextAll G i).foldl (fun s j => layerFprop G fuel j s)
          { cnt := Function.update st.cnt i (st.cnt i + 1),
            done := Function.update st.done i (st.done i + 1) } := by
      simp only [layerFprop]
      rw [if_pos hfire]
    have hframe := foldFprop_frame G fuel (layerFprop_frame G hdag fuel)
      (addNextAll G i)
      { cnt := Function.update st.cnt i (st.cnt i + 1),
        done := Function.update st.done i (st.done i + 1) } i
      (fun j hj => hdag j i (mem_addNextAll.mp hj))
    dsimp only at hframe
    rw [Function.update_same, Function.update_same] at hframe
    rw [hres]
    refine ⟨hframe.1, ?_, ?_⟩
    · rw [hframe.2]
      exact ⟨fun _ => hfire, fun _ => rfl⟩
    · rw [hframe.2]
      constructor
      · intro habs
        exact absurd habs (by omega)
      · intro habs
        exact absurd hfire habs
  · have hres : layerFprop G (fuel + 1) i st
        = { st with cnt := Function.update st.cnt i (st.cnt i + 1) } := by
      simp only [layerFprop]
      rw [if_neg hfire]
    rw [hres]
    dsimp only
    refine ⟨Function.update_same _ _ _, ?_, ?_⟩
    · constructor
      · intro habs
        omega
      · intro habs
        exact absurd habs hfire
    · exact ⟨fun _ => hfire, fun _ => rfl⟩

/-! ### Claim theorems -/

/--
C2: each call to the zero-argument `Layer::fprop()` increments
`_rcvdFInputs` by one, and the layer-specific forward computation (followed
by propagation to every successor) runs exactly when the counter reaches the
predecessor count; consequently, in a full `LayerGraph::fprop` pass over a
constructor-ordered DAG, starting from counters all zero, in which every
layer is either a data layer without predecessors or a computed layer with at
least one predecessor, every layer computes its forward transform exactly
once (none twice, none skipped) and ends with `_rcvdFInputs` equal to its
predecessor count.
-/
theorem fprop_counting_exactly_once (G : LayerGraph)
    (hdag : ∀ i : Fin G.numLayers, ∀ p ∈ G.prevOf i, p.val < i.val)
    (hdata : ∀ i, G.isData i = true → G.prevOf i = [])
    (hnondata : ∀ i, G.isData i = false → G.prevOf i ≠ []) :
    (∀ (fuel : Nat) (i : Fin G.numLayers) (st : PassState G.numLayers),
      (layerFprop G (fuel + 1) i st).cnt i = st.cnt i + 1 ∧
      ((layerFprop G (fuel + 1) i st).done i = st.done i + 1 ↔
        st.cnt i + 1 = (G.prevOf i).length) ∧
      ((layerFprop G (fuel + 1) i st).done i = st.done i ↔
        ¬st.cnt i + 1 = (G.prevOf i).length)) ∧
    (∀ j, (graphFprop G).done j = 1 ∧
      (graphFprop G).cnt j = (G.prevOf j).length) :=
  ⟨fun fuel i st => layerFprop_local G hdag fuel i st,
   graphFprop_once G hdag hdata hnondata⟩

/-- Witness for `fprop_counting_exactly_once`: the concrete diamond graph
(one data layer feeding two branches that rejoin). -/
theorem fprop_counting_exactly_once_witness :
    (∀ i : Fin diamondGraph.numLayers,
      ∀ p ∈ diamondGraph.prevOf i, p.val < i.val) ∧
    ((graphFprop diamondGraph).done ⟨3, by decide⟩ = 1 ∧
      (graphFprop diamondGraph).cnt ⟨3, by decide⟩
        = (diamondGraph.prevOf ⟨3, by decide⟩).length) :=
  ⟨by decide,
   (fprop_counting_exactly_once diamondGraph (by decide) (by decide)
      (by decide)).2 ⟨3, by decide⟩⟩

/--
C5: after `LayerGraph` construction, the successor lists are exactly the
inverse of the declared predecessor lists: for every pair of layers `A` and
`B`, the successor list of `B` contains `A` exactly as many times as the
predecessor list of `A` contains `B`.
-/
theorem successor_lists_inverse_of_predecessor_lists (G : LayerGraph)
    (A B : Fin G.numLayers) :
    (addNextAll G B).count A = (G.prevOf A).count B :=
  count_addNextAll G B A

theorem deliverAll_pos {α : Type} [AddCommMonoid α] :
    ∀ (cs : List α) (g : α) (k : Nat),
      deliverAll cs ⟨g, k + 1⟩ = ⟨g + cs.sum, (k + 1) + cs.length⟩ := by
  intro cs
  induction cs with
  | nil =>
    intro g k
    simp [deliverAll]
  | cons c cs ih =>
    intro g k
    have hstep : deliverGrad (⟨g, k + 1⟩ : BpropAcc α) c
        = ⟨g + c, (k + 1) + 1⟩ := by
      simp [deliverGrad]
    simp only [deliverAll, List.foldl_cons]
    rw [hstep]
    have := ih (g + c) (k + 1)
    simp only [deliverAll] at this
    rw [this]
    simp only [List.sum_cons, List.length_cons, BpropAcc.mk.injEq]
    constructor
    · rw [add_assoc]
    · omega

theorem deliverAll_start {α : Type} [AddCommMonoid α] (c : α) (cs : List α)
    (g0 : α) :
    deliverAll (c :: cs) ⟨g0, 0⟩ = ⟨c + cs.sum, cs.length + 1⟩ := by
  have hstep : deliverGrad (⟨g0, 0⟩ : BpropAcc α) c = ⟨c, 1⟩ := by
    simp [deliverGrad]
  simp only [deliverAll, List.foldl_cons]
  rw [hstep]
  have := deliverAll_pos cs c 0
  simp only [deliverAll] at this
  rw [this]
  simp only [BpropAcc.mk.injEq, true_and]
  omega

/--
C4: for a layer receiving two or more gradient contributions in a backward
pass, the contribution that arrives while `_rcvdBInputs` is zero overwrites
the activation-gradient buffer, every later one is added, and at the end of
the pass the buffer holds the sum of all contributions — independent of the
previous contents of the buffer and of the order of arrival.
-/
theorem bprop_first_writer_then_accumulate {α : Type} [AddCommMonoid α]
    (cs : List α) (h2 : 2 ≤ cs.length) (g0 : α) :
    (deliverAll cs ⟨g0, 0⟩).actGrads = cs.sum ∧
    (deliverAll cs ⟨g0, 0⟩).rcvdB = cs.length ∧
    (∀ cs2 : List α, cs.Perm cs2 →
      (deliverAll cs2 ⟨g0, 0⟩).actGrads = (deliverAll cs ⟨g0, 0⟩).actGrads) := by
  rcases cs with _ | ⟨c, cs⟩
  · simp at h2
  · rw [deliverAll_start]
    refine ⟨by simp, by simp, ?_⟩
    intro cs2 hperm
    rcases cs2 with _ | ⟨c2, cs2⟩
    · have := hperm.length_eq
      simp at this
    · rw [deliverAll_start]
      have hsum := hperm.sum_eq
      simp only [List.sum_cons] at hsum
      simpa using hsum.symm

/-- Witness for `bprop_first_writer_then_accumulate`: two rational
contributions into a buffer that previously held `7`. -/
theorem bprop_first_writer_then_accumulate_witness :
    2 ≤ [(1 : ℚ), 2].length ∧
    (deliverAll [(1 : ℚ), 2] ⟨7, 0⟩).actGrads = [(1 : ℚ), 2].sum :=
  ⟨by decide, (bprop_first_writer_then_accumulate [(1 : ℚ), 2] (by decide) 7).1⟩

/--
C1 counterexample: the claim says that with a zero coefficient
`LogregCost::bprop` returns with the state of every other layer unchanged and
without invoking `bprop()` on the predictions predecessor.  At the concrete
input below (coefficient `0`, predecessor counter `0`, two gradient-producing
successors) the `_rcvdBInputs` counter of the predecessor changes from `0` to `1`:
the source calls `_prev[1]->bprop()` outside the `if (_coeff != 0)` guard
(layer.cu:761), so the predecessor state is not left unchanged.
-/
theorem logregBprop_zero_coeff_changes_pred_state :
    logregCostBprop 0 1 2 ⟨3, 0, 0⟩ ≠ ⟨3, 0, 0⟩ ∧
    (logregCostBprop 0 1 2 ⟨3, 0, 0⟩).rcvdB = 1 := by
  constructor
  · decide
  · decide

/--
C1 (amended): if the coefficient is zero, no gradient is computed into the
activation-gradient buffer of the predictions predecessor (the kernel launch is
skipped), but `bprop()` is nevertheless invoked on the predictions
predecessor: its `_rcvdBInputs` counter is incremented by one, and its
layer-specific backward computation fires exactly when the incremented
counter equals its gradient-producing successor count.
-/
theorem logregBprop_zero_coeff_skips_grad_but_propagates
    (contrib : ℚ) (N : Nat) (st : PredLayerView) :
    (logregCostBprop 0 contrib N st).actGrads = st.actGrads ∧
    (logregCostBprop 0 contrib N st).rcvdB = st.rcvdB + 1 ∧
    ((logregCostBprop 0 contrib N st).fired = st.fired + 1 ↔
      st.rcvdB + 1 = N) ∧
    ((logregCostBprop 0 contrib N st).fired = st.fired ↔
      ¬st.rcvdB + 1 = N) := by
  have hcoeff : ¬(0 : ℚ) ≠ 0 := by simp
  simp only [logregCostBprop, if_neg hcoeff]
  by_cases hN : st.rcvdB + 1 = N
  · rw [if_pos hN]
    refine ⟨rfl, rfl, ⟨fun _ => hN, fun _ => rfl⟩, ?_⟩
    constructor
    · intro habs
      dsimp only at habs
      omega
    · intro habs
      exact absurd hN habs
  · rw [if_neg hN]
    refine ⟨rfl, rfl, ?_, ⟨fun _ => hN, fun _ => rfl⟩⟩
    constructor
    · intro habs
      dsimp only at habs
      omega
    · intro habs
      exact absurd habs hN

/--
C9: the generic entry points unsupported by these layer kinds always throw a
descriptive error and never produce a result: `DataLayer::fprop()` throws
`"No dava given!"` on every call, and `Cost::_bprop(NVMatrix&)` throws
`"Cost does not support _bprop(NVMatrix&)"` on every call.
-/
theorem generic_entry_points_always_throw :
    (∀ (n : Nat) (st : PassState n),
      dataLayerFprop0 st = Except.error "No dava given!") ∧
    (∀ (α : Type) (v : α),
      costBpropSingle v
        = Except.error "Cost does not support _bprop(NVMatrix&)") :=
  ⟨fun _ _ => rfl, fun _ _ => rfl⟩

/--
C6: in `ConvLayer::_bprop` the chunked partial-sum weight-gradient path is
taken iff `0 < partialSum < modules` with `modules = modulesX * modulesX`;
in particular, when `partialSum` equals the full spatial output count, when
it is zero, and when it exceeds the output count, the single-call path
computes the weight gradient.
-/
theorem convWeightGrad_path_selection (modulesX filterSize partSum : Int) :
    (convWeightGradPath (mkConvLayer modulesX filterSize partSum)
        = WeightGradPath.chunked ↔
      0 < partSum ∧ partSum < modulesX * modulesX) ∧
    (partSum = modulesX * modulesX →
      convWeightGradPath (mkConvLayer modulesX filterSize partSum)
        = WeightGradPath.single) ∧
    (partSum = 0 →
      convWeightGradPath (mkConvLayer modulesX filterSize partSum)
        = WeightGradPath.single) ∧
    (modulesX * modulesX < partSum →
      convWeightGradPath (mkConvLayer modulesX filterSize partSum)
        = WeightGradPath.single) := by
  simp only [convWeightGradPath, mkConvLayer]
  refine ⟨?_, ?_, ?_, ?_⟩
  · split_ifs with h
    · exact iff_of_true rfl h
    · exact iff_of_false (by decide) h
  · intro h
    rw [if_neg (by omega)]
  · intro h
    rw [if_neg (by omega)]
  · intro h
    rw [if_neg (by omega)]

/-- Witness for `convWeightGrad_path_selection`: `modulesX = 2`, so
`modules = 4`; a `partialSum` of `4` spans the full output and selects the
single-call path. -/
theorem convWeightGrad_path_selection_witness :
    (4 : Int) = 2 * 2 ∧
    convWeightGradPath (mkConvLayer 2 3 4) = WeightGradPath.single :=
  ⟨by decide, (convWeightGrad_path_selection 2 3 4).2.1 (by decide)⟩

/--
C7: in `FCLayer::_bprop`, when gradient-checking mode is set the
weight-increment buffer is updated with momentum factor `0` and scale `1`,
so the increment equals exactly the transpose of the predecessor activations
times the local gradient; outside checking mode the old increment is scaled
by the momentum coefficient and the new term by the learning rate divided by
the case count.
-/
theorem fcWeightInc_checking_formula :
    (∀ (m k n : Nat) (inc : RMat k n) (prevActs : RMat m k) (v : RMat m n)
        (mom eps numCases : ℝ),
      fcWeightIncUpdate true inc prevActs v mom eps numCases
        = matMul (transposeOf prevActs) v) ∧
    (∀ (m k n : Nat) (inc : RMat k n) (prevActs : RMat m k) (v : RMat m n)
        (mom eps numCases : ℝ) (i : Fin k) (j : Fin n),
      fcWeightIncUpdate false inc prevActs v mom eps numCases i j
        = mom * inc i j
          + (eps / numCases) * matMul (transposeOf prevActs) v i j) := by
  constructor
  · intro m k n inc prevActs v mom eps numCases
    funext i j
    simp [fcWeightIncUpdate, addProduct, boolToReal]
  · intro m k n inc prevActs v mom eps numCases i j
    simp [fcWeightIncUpdate, addProduct, boolToReal]

/--
C8: `SoftmaxLayer::_fprop` computes, for every input matrix, the composition
subtract-per-case-max, exponentiate elementwise, divide by the per-case sum:
the activation buffer equals `exp(x - max)` normalized by its per-case sum.
-/
theorem softmaxFprop_closed_form {m n : Nat} (input : Fin m → Fin (n + 1) → ℝ)
    (c : Fin m) (j : Fin (n + 1)) :
    softmaxFprop input c j
      = Real.exp (input c j - rowMax input c)
        / ∑ t, Real.exp (input c t - rowMax input c) := by
  simp only [softmaxFprop, divByVec, applyEXP, addVec, rowSum]
  rw [show input c j + (-1) * rowMax input c
      = input c j - rowMax input c by ring]
  congr 1
  refine Finset.sum_congr rfl fun t _ => ?_
  rw [show input c t + (-1) * rowMax input c
      = input c t - rowMax input c by ring]

theorem updEntry_restore {m n : Nat} (A : RMat m n) (i : Fin m) (j : Fin n)
    (x : ℝ) :
    updEntry (updEntry A i j x) i j (A i j) = A := by
  funext a b
  simp only [updEntry]
  split_ifs with h
  · rcases h with ⟨ha, hb⟩
    rw [ha, hb]
  · rfl

theorem cgwStep_spec {m n : Nat} (costF : RMat m n → ℝ)
    (eps baseErr numCases : ℝ) (w0 : RMat m n) (st : CgwLoop m n)
    (p : Fin m × Fin n) (hh : st.hostW = w0) :
    cgwStep costF eps baseErr numCases st p
      = { hostW := w0, devW := w0,
          numGrads := updEntry st.numGrads p.1 p.2
            ((costF (updEntry w0 p.1 p.2 (w0 p.1 p.2 + eps)) - baseErr)
              / (numCases * eps)) } := by
  subst hh
  simp only [cgwStep]
  rw [updEntry_restore]

theorem cgwFold_spec {m n : Nat} (costF : RMat m n → ℝ)
    (eps baseErr numCases : ℝ) (w0 : RMat m n) :
    ∀ (L : List (Fin m × Fin n)) (st : CgwLoop m n),
      st.hostW = w0 → st.devW = w0 →
      (L.foldl (cgwStep costF eps baseErr numCases) st).hostW = w0 ∧
      (L.foldl (cgwStep costF eps baseErr numCases) st).devW = w0 ∧
      ∀ (i : Fin m) (j : Fin n),
        (L.foldl (cgwStep costF eps baseErr numCases) st).numGrads i j
          = if (i, j) ∈ L then
              (costF (updEntry w0 i j (w0 i j + eps)) - baseErr)
                / (numCases * eps)
            else st.numGrads i j := by
  intro L
  induction L with
  | nil =>
    intro st hh hd
    exact ⟨hh, hd, fun i j => by simp⟩
  | cons p L ih =>
    intro st hh hd
    rcases p with ⟨p1, p2⟩
    simp only [List.foldl_cons]
    rw [cgwStep_spec costF eps baseErr numCases w0 st (p1, p2) hh]
    obtain ⟨h1, h2, h3⟩ := ih
      { hostW := w0, devW := w0,
        numGrads := updEntry st.numGrads p1 p2
          ((costF (updEntry w0 p1 p2 (w0 p1 p2 + eps)) - baseErr)
            / (numCases * eps)) } rfl rfl
    refine ⟨h1, h2, fun i j => ?_⟩
    rw [h3 i j]
    by_cases hmem : (i, j) ∈ L
    · rw [if_pos hmem, if_pos (by simp [hmem])]
    · rw [if_neg hmem]
      dsimp only
      by_cases hp : i = p1 ∧ j = p2
      · rcases hp with ⟨hp1, hp2⟩
        subst hp1
        subst hp2
        rw [if_pos (by simp), updEntry, if_pos ⟨rfl, rfl⟩]
      · rw [updEntry, if_neg hp, if_neg ?_]
        simp only [List.mem_cons, Prod.mk.injEq]
        push_neg
        exact ⟨fun ha hb => absurd ⟨ha, hb⟩ hp, hmem⟩

theorem mem_allIdx {m n : Nat} (i : Fin m) (j : Fin n) :
    (i, j) ∈ allIdx m n := by
  simp only [allIdx, List.mem_flatMap, List.mem_map]
  exact ⟨i, List.mem_finRange i, j, List.mem_finRange j, rfl⟩

/--
C3: for every weight entry `(i, j)` checked by `LayerGraph::checkGradientsW`
with perturbation `eps`, the numeric gradient equals
`(cost after adding eps to entry (i,j) - baseline cost) / (numCases * eps)`;
the analytic gradient compared against is the accumulated gradient negated
and scaled by `1 / numCases`; and failure is flagged iff the Frobenius norm
of (numeric minus analytic) divided by the Frobenius norm of the analytic
gradient is at least `0.02`.
-/
theorem checkGradientsW_numeric_vs_analytic {m n : Nat} (costF : RMat m n → ℝ)
    (eps baseErr numCases : ℝ) (w0 grads0 : RMat m n) :
    (∀ (i : Fin m) (j : Fin n),
      (checkGradientsW costF eps baseErr numCases w0 grads0).numGrads i j
        = (costF (updEntry w0 i j (w0 i j + eps)) - baseErr)
          / (numCases * eps)) ∧
    (checkGradientsW costF eps baseErr numCases w0 grads0).analGrads
      = matScale (-1 / numCases) grads0 ∧
    ((checkGradientsW costF eps baseErr numCases w0 grads0).fail ↔
      0.02 ≤ frobNorm (matSub
          (checkGradientsW costF eps baseErr numCases w0 grads0).numGrads
          (matScale (-1 / numCases) grads0))
        / frobNorm (matScale (-1 / numCases) grads0)) := by
  obtain ⟨h1, h2, h3⟩ := cgwFold_spec costF eps baseErr numCases w0
    (allIdx m n) { hostW := w0, devW := w0, numGrads := fun _ _ => 0 } rfl rfl
  refine ⟨fun i j => ?_, rfl, Iff.rfl⟩
  have := h3 i j
  rw [if_pos (mem_allIdx i j)] at this
  exact this

/--
C10: after `LayerGraph::checkGradientsW` returns, the device weight matrix
holds exactly the values it held on entry (every per-entry `+eps`
perturbation has been undone by the final `copyFromHost` of the restored
host matrix), but the gradient accumulator of the weight container has been
scaled in place by `-1 / numCases` — a persistent side effect on the
analytic gradient buffer.
-/
theorem checkGradientsW_frame_effect {m n : Nat} (costF : RMat m n → ℝ)
    (eps baseErr numCases : ℝ) (w0 grads0 : RMat m n) :
    (checkGradientsW costF eps baseErr numCases w0 grads0).finalW = w0 ∧
    (checkGradientsW costF eps baseErr numCases w0 grads0).analGrads
      = matScale (-1 / numCases) grads0 := by
  obtain ⟨h1, h2, h3⟩ := cgwFold_spec costF eps baseErr numCases w0
    (allIdx m n) { hostW := w0, devW := w0, numGrads := fun _ _ => 0 } rfl rfl
  exact ⟨h2, rfl⟩
